import Mathlib

/-!
Verification of the kvstore storage engine (WAL, memtable, SST files).

The Go source is shallowly embedded: files are lists of byte values
(naturals below 256), the memtable (a skiplist ordered bytewise by key)
is a bytewise-sorted association list, and every fallible operation
returns an `Option`.  All multi-byte integers on disk are big-endian,
as in the source (`binary.BigEndian`).
-/

namespace KVStore

/-- Big-endian 4-byte encoding of a natural number, as produced by
`binary.Write(w, binary.BigEndian, uint32(n))`. -/
def be32 (n : Nat) : List Nat :=
  [n / 2 ^ 24 % 256, n / 2 ^ 16 % 256, n / 2 ^ 8 % 256, n % 256]

/-- Big-endian 2-byte encoding of a natural number (`uint16`). -/
def be16 (n : Nat) : List Nat :=
  [n / 2 ^ 8 % 256, n % 256]

/-- Value of a big-endian byte string. -/
def beVal (l : List Nat) : Nat :=
  l.foldl (fun a b => a * 256 + b) 0

/-- Read exactly `n` bytes from the front of `l` (the model of
`io.ReadFull` / `binary.Read` into a fixed-size buffer): succeeds with the
bytes read and the remainder, or fails when fewer than `n` bytes remain. -/
def takeExact (n : Nat) (l : List Nat) : Option (List Nat × List Nat) :=
  if n ≤ l.length then some (l.take n, l.drop n) else none

theorem be32_length (n : Nat) : (be32 n).length = 4 := rfl

theorem beVal_be32 (n : Nat) (h : n < 2 ^ 32) : beVal (be32 n) = n := by
  simp only [be32, beVal, List.foldl]
  omega

theorem takeExact_append (n : Nat) (a b : List Nat) (h : a.length = n) :
    takeExact n (a ++ b) = some (a, b) := by
  subst h
  simp [takeExact, List.take_left, List.drop_left]

/-- `bytes.Compare` / the `skiplist.Bytes` comparator: unsigned bytewise
lexicographic order, a proper prefix compares less. -/
def bytesCmp : List Nat → List Nat → Ordering
  | [], [] => .eq
  | [], _ :: _ => .lt
  | _ :: _, [] => .gt
  | a :: as, b :: bs =>
    if a < b then .lt else if b < a then .gt else bytesCmp as bs

/-- `a` is bytewise no greater than `b`. -/
def bytesLe (a b : List Nat) : Prop := bytesCmp a b ≠ .gt

theorem bytesCmp_eq_iff (a b : List Nat) : bytesCmp a b = .eq ↔ a = b := by
  induction a generalizing b with
  | nil => cases b <;> simp [bytesCmp]
  | cons x xs ih =>
    cases b with
    | nil => simp [bytesCmp]
    | cons y ys =>
      by_cases hxy : x < y
      · simp [bytesCmp, hxy]
        omega
      · by_cases hyx : y < x
        · simp [bytesCmp, hxy, hyx]
          omega
        · have hxyeq : x = y := by omega
          simp [bytesCmp, hxy, hyx, ih, hxyeq]

theorem bytesCmp_gt_iff_lt (a b : List Nat) :
    bytesCmp a b = .gt ↔ bytesCmp b a = .lt := by
  induction a generalizing b with
  | nil => cases b <;> simp [bytesCmp]
  | cons x xs ih =>
    cases b with
    | nil => simp [bytesCmp]
    | cons y ys =>
      by_cases hxy : x < y
      · have : ¬ y < x := by omega
        simp [bytesCmp, hxy, this]
      · by_cases hyx : y < x
        · simp [bytesCmp, hxy, hyx]
        · simp [bytesCmp, hxy, hyx, ih]

theorem bytesCmp_lt_trans {a b c : List Nat}
    (hab : bytesCmp a b = .lt) (hbc : bytesCmp b c = .lt) :
    bytesCmp a c = .lt := by
  induction a generalizing b c with
  | nil =>
    cases c with
    | nil =>
      cases b with
      | nil => simp [bytesCmp] at hab
      | cons y ys => simp [bytesCmp] at hbc
    | cons z zs => simp [bytesCmp]
  | cons x xs ih =>
    cases b with
    | nil => simp [bytesCmp] at hab
    | cons y ys =>
      cases c with
      | nil => simp [bytesCmp] at hbc
      | cons z zs =>
        by_cases hxy : x < y
        · by_cases hyz : y < z
          · have hxz : x < z := by omega
            simp [bytesCmp, hxz]
          · by_cases hzy : z < y
            · simp [bytesCmp, hyz, hzy] at hbc
            · have hyzeq : y = z := by omega
              have hxz : x < z := by omega
              simp [bytesCmp, hxz]
        · by_cases hyx : y < x
          · simp [bytesCmp, hxy, hyx] at hab
          · have hxyeq : x = y := by omega
            subst hxyeq
            simp [bytesCmp, hxy] at hab
            by_cases hyz : x < z
            · simp [bytesCmp, hyz]
            · by_cases hzy : z < x
              · simp [bytesCmp, hyz, hzy] at hbc
              · have hxz : x = z := by omega
                subst hxz
                simp [bytesCmp] at hbc ⊢
                exact ih hab hbc

theorem bytesLe_of_not_lt {a b : List Nat} (h : ¬ bytesCmp a b = .lt) :
    bytesLe b a := by
  intro hgt
  exact h ((bytesCmp_gt_iff_lt b a).mp hgt)

theorem bytesLe_of_lt {a b : List Nat} (h : bytesCmp a b = .lt) :
    bytesLe a b := by
  intro hgt
  rw [bytesCmp_gt_iff_lt] at hgt
  have h2 := bytesCmp_lt_trans h hgt
  have h3 : bytesCmp a a = .eq := (bytesCmp_eq_iff a a).mpr rfl
  rw [h2] at h3
  exact Ordering.noConfusion h3

theorem bytesLe_trans {a b c : List Nat}
    (hab : bytesLe a b) (hbc : bytesLe b c) : bytesLe a c := by
  rcases h1 : bytesCmp a b with _ | _ | _
  · rcases h2 : bytesCmp b c with _ | _ | _
    · exact bytesLe_of_lt (bytesCmp_lt_trans h1 h2)
    · rw [bytesCmp_eq_iff] at h2
      subst h2
      exact bytesLe_of_lt h1
    · exact absurd h2 hbc
  · rw [bytesCmp_eq_iff] at h1
    subst h1
    exact hbc
  · exact absurd h1 hab

/-! ## Memtable

The `huandu/skiplist` map keyed with `skiplist.Bytes` is modelled as an
association list sorted bytewise-ascending on keys.  A stored value is the
source's `Value` struct: an operation tag (`"SET"` or `"DEL"`, kept as the
3 ASCII bytes) and a payload. -/

/-- ASCII bytes of `"SET"`. -/
def opSET : List Nat := [83, 69, 84]

/-- ASCII bytes of `"DEL"`. -/
def opDEL : List Nat := [68, 69, 76]

/-- The source's `Value` struct: `{Operation string; Value []byte}`. -/
structure Value where
  operation : List Nat
  value : List Nat
  deriving DecidableEq, Repr

/-- The memtable: a bytewise-sorted association list from keys to `Value`. -/
abbrev Table := List (List Nat × Value)

/-- `skiplist.Get`: look up the entry for `key`, `none` when absent
(the skiplist returns a nil element). -/
def tableGet (t : Table) (key : List Nat) : Option Value :=
  match t with
  | [] => none
  | (k, v) :: rest => if k = key then some v else tableGet rest key

/-- `skiplist.Set`: insert-or-overwrite keeping the list sorted bytewise. -/
def tableSet (t : Table) (key : List Nat) (v : Value) : Table :=
  match t with
  | [] => [(key, v)]
  | (k, w) :: rest =>
    match bytesCmp key k with
    | .lt => (key, v) :: (k, w) :: rest
    | .eq => (key, v) :: rest
    | .gt => (k, w) :: tableSet rest key v

/-! ## WAL

A WAL file is a list of bytes.  A record is, in order: a 4-byte big-endian
watermark, 3 ASCII operation bytes, a 4-byte big-endian key length, the key,
a 4-byte big-endian value length, and the value (`wal.go AppendEntry`). -/

/-- `Watermark` (retired): `0xDEAD`. -/
def Watermark : Nat := 0xDEAD

/-- `WatermarkPlaceholder` (live): `0`. -/
def WatermarkPlaceholder : Nat := 0

/-- The source's `WALEntry` struct (operation kept as its 3 bytes). -/
structure WALEntry where
  operation : List Nat
  key : List Nat
  value : List Nat
  deriving DecidableEq, Repr

/-- A WAL record together with its watermark, for reasoning about whole
files record by record. -/
structure WALRecord where
  watermark : Nat
  op : List Nat
  key : List Nat
  value : List Nat
  deriving DecidableEq, Repr

/-- The bytes `AppendEntry(watermark, op, key, value)` writes. -/
def encodeWALRecord (watermark : Nat) (op key value : List Nat) : List Nat :=
  be32 watermark ++ op ++ be32 key.length ++ key ++ be32 value.length ++ value

/-- A whole WAL file as the concatenation of its records. -/
def encodeWAL (rs : List WALRecord) : List Nat :=
  (rs.map fun r => encodeWALRecord r.watermark r.op r.key r.value).flatten

/-- `AppendEntry` on the file state: append one encoded record. -/
def appendEntry (file : List Nat) (watermark : Nat) (op key value : List Nat) :
    List Nat :=
  file ++ encodeWALRecord watermark op key value

/-- Parse one WAL record from the front of `rest`, returning the entry, the
number of bytes consumed, and the watermark (`readWALEntryAt` without the
seek). Fails (`none`) on a short read or an invalid watermark. -/
def parseWALRecord (rest : List Nat) : Option (WALEntry × Nat × Nat) :=
  match takeExact 4 rest with
  | none => none
  | some (wmBytes, r1) =>
    let wm := beVal wmBytes
    if wm = WatermarkPlaceholder ∨ wm = Watermark then
      match takeExact 3 r1 with
      | none => none
      | some (op, r2) =>
        match takeExact 4 r2 with
        | none => none
        | some (keyLenBytes, r3) =>
          let keyLen := beVal keyLenBytes
          match takeExact keyLen r3 with
          | none => none
          | some (key, r4) =>
            match takeExact 4 r4 with
            | none => none
            | some (valLenBytes, r5) =>
              let valLen := beVal valLenBytes
              match takeExact valLen r5 with
              | none => none
              | some (val, _) =>
                some (⟨op, key, val⟩, 3 + keyLen + valLen + 4 * 2 + 4, wm)
    else none

/-- `readWALEntryAt(file, offset)`: seek to `offset`, parse one record, and
return it with the offset of the record immediately following. -/
def readWALEntryAt (file : List Nat) (offset : Nat) :
    Option (WALEntry × Nat × Nat) :=
  match parseWALRecord (file.drop offset) with
  | none => none
  | some (e, consumed, wm) => some (e, offset + consumed, wm)

/-- Well-formed record: a watermark the reader accepts, a 3-byte operation,
byte values below 256, and lengths below `2^32` (the width of the on-disk
length prefixes). -/
def wfRecord (r : WALRecord) : Bool :=
  (r.watermark == WatermarkPlaceholder || r.watermark == Watermark) &&
  r.op.length == 3 && r.op.all (· < 256) &&
  decide (r.key.length < 2 ^ 32) && r.key.all (· < 256) &&
  decide (r.value.length < 2 ^ 32) && r.value.all (· < 256)

theorem encodeWALRecord_length (w : Nat) (op key value : List Nat)
    (hop : op.length = 3) :
    (encodeWALRecord w op key value).length = 15 + key.length + value.length := by
  simp [encodeWALRecord, be32, hop]
  omega

/-- Parsing at the start of an encoded well-formed record recovers the
record exactly and consumes `15 + |key| + |value|` bytes, whatever follows. -/
theorem parseWALRecord_encode (r : WALRecord) (suffix : List Nat)
    (hr : wfRecord r = true) :
    parseWALRecord (encodeWALRecord r.watermark r.op r.key r.value ++ suffix) =
      some (⟨r.op, r.key, r.value⟩, 3 + r.key.length + r.value.length + 4 * 2 + 4,
        r.watermark) := by
  simp only [wfRecord, Bool.and_eq_true, beq_iff_eq, Bool.or_eq_true,
    decide_eq_true_eq] at hr
  obtain ⟨⟨⟨⟨⟨⟨hwm, hop⟩, _⟩, hklen⟩, _⟩, hvlen⟩, _⟩ := hr
  have hwm32 : r.watermark < 2 ^ 32 := by
    rcases hwm with h | h <;> simp [h, WatermarkPlaceholder, Watermark]
  have hvalid : r.watermark = WatermarkPlaceholder ∨ r.watermark = Watermark := by
    simpa [WatermarkPlaceholder, Watermark] using hwm
  simp only [encodeWALRecord, List.append_assoc, parseWALRecord,
    takeExact_append, be32_length, hop, beVal_be32 _ hwm32, beVal_be32 _ hklen,
    beVal_be32 _ hvlen, hvalid, if_true]

theorem readWALEntryAt_encode (front : List Nat) (r : WALRecord)
    (suffix : List Nat) (hr : wfRecord r = true) :
    readWALEntryAt
        (front ++ (encodeWALRecord r.watermark r.op r.key r.value ++ suffix))
        front.length =
      some (⟨r.op, r.key, r.value⟩,
        front.length + (3 + r.key.length + r.value.length + 4 * 2 + 4),
        r.watermark) := by
  simp only [readWALEntryAt, List.drop_left, parseWALRecord_encode r suffix hr]

/-! ## MemDB -/

/-- The MemDB state: the skiplist-backed memtable and the WAL file bytes. -/
structure MemDB where
  table : Table
  wal : List Nat
  deriving DecidableEq

/-- `MemDB.Set`.  The source updates the skiplist FIRST (memDB.go line 65)
and only then attempts the WAL append (line 68); a WAL I/O failure is
modelled by the oracle `walFails`.  Returns the new state and `true` when
the operation reported success. -/
def memSet (walFails : Bool) (m : MemDB) (key value : List Nat) :
    MemDB × Bool :=
  let m1 : MemDB := { m with table := tableSet m.table key ⟨opSET, value⟩ }
  if walFails then (m1, false)
  else ({ m1 with
    wal := appendEntry m1.wal WatermarkPlaceholder opSET key value }, true)

/-- `MemDB.Del`.  Absent key or existing tombstone: "Key not found" error
(`none`).  Otherwise the source rewrites the entry to a tombstone (line 92)
BEFORE the WAL append (line 95); on WAL failure it returns the error with
the memtable already mutated. -/
def memDel (walFails : Bool) (m : MemDB) (key : List Nat) :
    MemDB × Option (List Nat) :=
  match tableGet m.table key with
  | none => (m, none)
  | some v =>
    if v.operation = opDEL then (m, none)
    else
      let m1 : MemDB := { m with table := tableSet m.table key ⟨opDEL, v.value⟩ }
      if walFails then (m1, none)
      else ({ m1 with
        wal := appendEntry m1.wal WatermarkPlaceholder opDEL key v.value },
        some v.value)

/-- Outcome of `MemDB.Get` as the source behaves. -/
inductive GetOutcome where
  /-- The value returned for a memtable `SET` entry. -/
  | value (v : List Nat)
  /-- The `errors.New("Key not found")` return for a memtable `DEL` entry. -/
  | keyNotFoundError
  /-- Nil-pointer dereference: `elem.Value` is evaluated on the nil element
  returned by `skiplist.Get` before the `elem == nil` check (memDB.go
  line 78 precedes line 81), so a memtable miss panics and the
  `FindValueInSSTFiles` call on line 82 is unreachable. -/
  | panic
  deriving DecidableEq, Repr

/-- `MemDB.Get` as written in the source. -/
def memGet (m : MemDB) (key : List Nat) : GetOutcome :=
  match tableGet m.table key with
  | none => .panic
  | some v => if v.operation = opDEL then .keyNotFoundError else .value v.value

/-- The `switch entry.Operation` body of `MemDB.Load`: replay a `SET` or
`DEL` into the memtable, error (`none`) on any other operation. -/
def replayEntry (t : Table) (op key value : List Nat) : Option Table :=
  if op = opSET then some (tableSet t key ⟨opSET, value⟩)
  else if op = opDEL then some (tableSet t key ⟨opDEL, value⟩)
  else none

/-- The record-processing loop of `MemDB.Load`, with explicit fuel for the
`for offset < fileSize` iteration.  Any read error aborts the whole load
(`return err`), wherever in the file it occurs. -/
def loadLoop (file : List Nat) (fuel offset : Nat) (t : Table) : Option Table :=
  if offset < file.length then
    match fuel with
    | 0 => none
    | fuel + 1 =>
      match readWALEntryAt file offset with
      | none => none
      | some (e, nextOffset, wm) =>
        match (if wm = WatermarkPlaceholder
               then replayEntry t e.operation e.key e.value
               else some t) with
        | none => none
        | some t' =>
          if nextOffset ≥ file.length then some t'
          else loadLoop file fuel nextOffset t'
  else some t

/-- `MemDB.Load` starting from the empty memtable built by `NewMemDB`. -/
def load (file : List Nat) : Option Table :=
  if file.length = 0 then some [] else loadLoop file file.length 0 []

/-- The rewrite loop of `WAL.UpdateWatermark`: re-append every record read
from the old file into the new one.  Both branches of the source's
`nextOffset == fileSize` test write the retired watermark. -/
def updateWatermarkLoop (file : List Nat) (fuel offset : Nat)
    (newFile : List Nat) : Option (List Nat) :=
  if offset < file.length then
    match fuel with
    | 0 => none
    | fuel + 1 =>
      match readWALEntryAt file offset with
      | none => none
      | some (e, nextOffset, _) =>
        let newFile' :=
          if nextOffset = file.length then
            appendEntry newFile Watermark e.operation e.key e.value
          else
            appendEntry newFile Watermark e.operation e.key e.value
        updateWatermarkLoop file fuel nextOffset newFile'
  else some newFile

/-- `WAL.UpdateWatermark`: on an empty file return at once, otherwise
rewrite every record into the sibling file that then replaces the WAL. -/
def updateWatermark (file : List Nat) : Option (List Nat) :=
  if file.length = 0 then some file
  else updateWatermarkLoop file file.length 0 []

/-- The filter loop of `WAL.Clear`: records whose watermark is the
placeholder are re-appended — with `Watermark` (the retired value) as the
watermark argument of `AppendEntry` (wal.go line 287). -/
def clearLoop (file : List Nat) (fuel offset : Nat) (newFile : List Nat) :
    Option (List Nat) :=
  if offset < file.length then
    match fuel with
    | 0 => none
    | fuel + 1 =>
      match readWALEntryAt file offset with
      | none => none
      | some (e, nextOffset, wm) =>
        let newFile' :=
          if wm = WatermarkPlaceholder then
            appendEntry newFile Watermark e.operation e.key e.value
          else newFile
        clearLoop file fuel nextOffset newFile'
  else some newFile

/-- `WAL.Clear`: on an empty file return at once, otherwise keep only the
records whose original watermark was the placeholder. -/
def clear (file : List Nat) : Option (List Nat) :=
  if file.length = 0 then some file
  else clearLoop file file.length 0 []

/-- A record `r` rewritten with the retired watermark. -/
def retire (r : WALRecord) : WALRecord := { r with watermark := Watermark }

theorem wfRecord_op_length {r : WALRecord} (h : wfRecord r = true) :
    r.op.length = 3 := by
  simp only [wfRecord, Bool.and_eq_true, beq_iff_eq] at h
  exact h.1.1.1.1.1.2

theorem encodeWAL_cons (r : WALRecord) (rs : List WALRecord) :
    encodeWAL (r :: rs) =
      encodeWALRecord r.watermark r.op r.key r.value ++ encodeWAL rs := by
  simp [encodeWAL]

theorem encodeWAL_length_ge (rs : List WALRecord)
    (h : rs.all wfRecord = true) : rs.length ≤ (encodeWAL rs).length := by
  induction rs with
  | nil => simp [encodeWAL]
  | cons r rest ih =>
    simp only [List.all_cons, Bool.and_eq_true] at h
    rw [encodeWAL_cons]
    have h1 := encodeWALRecord_length r.watermark r.op r.key r.value
      (wfRecord_op_length h.1)
    have h2 := ih h.2
    simp only [List.length_append, List.length_cons, h1]
    omega

theorem updateWatermarkLoop_encode (rs : List WALRecord) :
    ∀ (front acc : List Nat) (fuel : Nat), rs.all wfRecord = true →
    rs.length ≤ fuel →
    updateWatermarkLoop (front ++ encodeWAL rs) fuel front.length acc =
      some (acc ++ encodeWAL (rs.map retire)) := by
  induction rs with
  | nil =>
    intro front acc fuel _ _
    cases fuel <;> simp [updateWatermarkLoop, encodeWAL]
  | cons r rest ih =>
    intro front acc fuel hwf hfuel
    simp only [List.all_cons, Bool.and_eq_true] at hwf
    obtain ⟨hr, hrest⟩ := hwf
    cases fuel with
    | zero => simp at hfuel
    | succ fuel =>
      have hop := wfRecord_op_length hr
      have hlen := encodeWALRecord_length r.watermark r.op r.key r.value hop
      rw [encodeWAL_cons]
      have hassoc : front ++
          (encodeWALRecord r.watermark r.op r.key r.value ++ encodeWAL rest) =
          (front ++ encodeWALRecord r.watermark r.op r.key r.value) ++
            encodeWAL rest := by
        simp [List.append_assoc]
      have hcond : front.length <
          (front ++ (encodeWALRecord r.watermark r.op r.key r.value ++
            encodeWAL rest)).length := by
        simp only [List.length_append, hlen]
        omega
      rw [updateWatermarkLoop]
      rw [if_pos hcond]
      rw [readWALEntryAt_encode front r (encodeWAL rest) hr]
      simp only [ite_self]
      have hoff : front.length + (3 + r.key.length + r.value.length + 4 * 2 + 4) =
          (front ++ encodeWALRecord r.watermark r.op r.key r.value).length := by
        simp only [List.length_append, hlen]
        omega
      rw [hoff, hassoc, appendEntry]
      rw [ih (front ++ encodeWALRecord r.watermark r.op r.key r.value)
        (acc ++ encodeWALRecord Watermark r.op r.key r.value) fuel hrest
        (by simpa using hfuel)]
      have : encodeWAL (retire r :: rest.map retire) =
          encodeWALRecord Watermark r.op r.key r.value ++
            encodeWAL (rest.map retire) := by
        rw [encodeWAL_cons]
        rfl
      simp [this, List.append_assoc]

/-- `UpdateWatermark` on a file holding well-formed records `rs` rewrites
the file to hold exactly `rs` with every watermark retired. -/
theorem updateWatermark_encode (rs : List WALRecord)
    (hwf : rs.all wfRecord = true) :
    updateWatermark (encodeWAL rs) = some (encodeWAL (rs.map retire)) := by
  rcases rs with _ | ⟨r, rest⟩
  · simp [updateWatermark, encodeWAL]
  · have hop := wfRecord_op_length (by
      simp only [List.all_cons, Bool.and_eq_true] at hwf
      exact hwf.1)
    have hlen := encodeWALRecord_length r.watermark r.op r.key r.value hop
    have hpos : (encodeWAL (r :: rest)).length ≠ 0 := by
      rw [encodeWAL_cons]
      simp only [List.length_append, hlen]
      omega
    rw [updateWatermark, if_neg hpos]
    have := updateWatermarkLoop_encode (r :: rest) [] []
      (encodeWAL (r :: rest)).length hwf
      (encodeWAL_length_ge (r :: rest) hwf)
    simpa using this

theorem clearLoop_encode (rs : List WALRecord) :
    ∀ (front acc : List Nat) (fuel : Nat), rs.all wfRecord = true →
    rs.length ≤ fuel →
    clearLoop (front ++ encodeWAL rs) fuel front.length acc =
      some (acc ++ encodeWAL
        (((rs.filter fun r => r.watermark == WatermarkPlaceholder)).map retire)) := by
  induction rs with
  | nil =>
    intro front acc fuel _ _
    cases fuel <;> simp [clearLoop, encodeWAL]
  | cons r rest ih =>
    intro front acc fuel hwf hfuel
    simp only [List.all_cons, Bool.and_eq_true] at hwf
    obtain ⟨hr, hrest⟩ := hwf
    cases fuel with
    | zero => simp at hfuel
    | succ fuel =>
      have hop := wfRecord_op_length hr
      have hlen := encodeWALRecord_length r.watermark r.op r.key r.value hop
      rw [encodeWAL_cons]
      have hassoc : front ++
          (encodeWALRecord r.watermark r.op r.key r.value ++ encodeWAL rest) =
          (front ++ encodeWALRecord r.watermark r.op r.key r.value) ++
            encodeWAL rest := by
        simp [List.append_assoc]
      have hcond : front.length <
          (front ++ (encodeWALRecord r.watermark r.op r.key r.value ++
            encodeWAL rest)).length := by
        simp only [List.length_append, hlen]
        omega
      rw [clearLoop]
      rw [if_pos hcond]
      rw [readWALEntryAt_encode front r (encodeWAL rest) hr]
      have hoff : front.length + (3 + r.key.length + r.value.length + 4 * 2 + 4) =
          (front ++ encodeWALRecord r.watermark r.op r.key r.value).length := by
        simp only [List.length_append, hlen]
        omega
      by_cases hwm : r.watermark = WatermarkPlaceholder
      · simp only [if_pos hwm]
        rw [hoff, hassoc, appendEntry]
        rw [ih (front ++ encodeWALRecord r.watermark r.op r.key r.value)
          (acc ++ encodeWALRecord Watermark r.op r.key r.value) fuel hrest
          (by simpa using hfuel)]
        have hfilter : (r :: rest).filter
            (fun r => r.watermark == WatermarkPlaceholder) =
            r :: rest.filter (fun r => r.watermark == WatermarkPlaceholder) := by
          simp [List.filter_cons, hwm]
        rw [hfilter, List.map_cons, encodeWAL_cons]
        simp [retire, List.append_assoc]
      · simp only [if_neg hwm]
        rw [hoff, hassoc]
        rw [ih (front ++ encodeWALRecord r.watermark r.op r.key r.value)
          acc fuel hrest (by simpa using hfuel)]
        have hfilter : (r :: rest).filter
            (fun r => r.watermark == WatermarkPlaceholder) =
            rest.filter (fun r => r.watermark == WatermarkPlaceholder) := by
          simp [List.filter_cons, hwm]
        rw [hfilter]

/-- `Clear` on a file holding well-formed records `rs` keeps exactly the
records whose watermark was the placeholder, in order, each rewritten with
the retired watermark. -/
theorem clear_encode (rs : List WALRecord) (hwf : rs.all wfRecord = true) :
    clear (encodeWAL rs) = some (encodeWAL
      (((rs.filter fun r => r.watermark == WatermarkPlaceholder)).map retire)) := by
  rcases rs with _ | ⟨r, rest⟩
  · simp [clear, encodeWAL]
  · have hop := wfRecord_op_length (by
      simp only [List.all_cons, Bool.and_eq_true] at hwf
      exact hwf.1)
    have hlen := encodeWALRecord_length r.watermark r.op r.key r.value hop
    have hpos : (encodeWAL (r :: rest)).length ≠ 0 := by
      rw [encodeWAL_cons]
      simp only [List.length_append, hlen]
      omega
    rw [clear, if_neg hpos]
    have := clearLoop_encode (r :: rest) [] []
      (encodeWAL (r :: rest)).length hwf
      (encodeWAL_length_ge (r :: rest) hwf)
    simpa using this

/-- What the spec says replay does: fold the records in file order,
upserting the key of each placeholder-watermark record with its operation
and payload, and skipping retired records. -/
def replayRecords (rs : List WALRecord) (t : Table) : Table :=
  rs.foldl (fun t r =>
    if r.watermark = WatermarkPlaceholder then tableSet t r.key ⟨r.op, r.value⟩
    else t) t

/-- A record `Load` can process: every live (placeholder) record must carry
a `SET` or `DEL` operation (otherwise `Load` fails with
"Unknown operation in WAL"). -/
def loadableRecord (r : WALRecord) : Bool :=
  r.watermark != WatermarkPlaceholder || (r.op == opSET || r.op == opDEL)

theorem replayEntry_eq {r : WALRecord} (hl : loadableRecord r = true)
    (hwm : r.watermark = WatermarkPlaceholder) (t : Table) :
    replayEntry t r.op r.key r.value =
      some (tableSet t r.key ⟨r.op, r.value⟩) := by
  simp only [loadableRecord, hwm, bne_self_eq_false, Bool.false_or,
    Bool.or_eq_true, beq_iff_eq] at hl
  rcases hl with h | h <;> simp [replayEntry, h, opSET, opDEL]

theorem loadLoop_encode (rs : List WALRecord) :
    ∀ (front : List Nat) (t : Table) (fuel : Nat), rs.all wfRecord = true →
    rs.all loadableRecord = true → rs.length ≤ fuel →
    loadLoop (front ++ encodeWAL rs) fuel front.length t =
      some (replayRecords rs t) := by
  induction rs with
  | nil =>
    intro front t fuel _ _ _
    cases fuel <;> simp [loadLoop, encodeWAL, replayRecords]
  | cons r rest ih =>
    intro front t fuel hwf hload hfuel
    simp only [List.all_cons, Bool.and_eq_true] at hwf hload
    obtain ⟨hr, hrest⟩ := hwf
    obtain ⟨hlr, hlrest⟩ := hload
    cases fuel with
    | zero => simp at hfuel
    | succ fuel =>
      have hop := wfRecord_op_length hr
      have hlen := encodeWALRecord_length r.watermark r.op r.key r.value hop
      rw [encodeWAL_cons]
      have hassoc : front ++
          (encodeWALRecord r.watermark r.op r.key r.value ++ encodeWAL rest) =
          (front ++ encodeWALRecord r.watermark r.op r.key r.value) ++
            encodeWAL rest := by
        simp [List.append_assoc]
      have hcond : front.length <
          (front ++ (encodeWALRecord r.watermark r.op r.key r.value ++
            encodeWAL rest)).length := by
        simp only [List.length_append, hlen]
        omega
      rw [loadLoop]
      rw [if_pos hcond]
      rw [readWALEntryAt_encode front r (encodeWAL rest) hr]
      have hoff : front.length + (3 + r.key.length + r.value.length + 4 * 2 + 4) =
          (front ++ encodeWALRecord r.watermark r.op r.key r.value).length := by
        simp only [List.length_append, hlen]
        omega
      have hstep : ∀ t' : Table,
          (if front.length + (3 + r.key.length + r.value.length + 4 * 2 + 4) ≥
              (front ++ (encodeWALRecord r.watermark r.op r.key r.value ++
                encodeWAL rest)).length
           then some t'
           else loadLoop
             (front ++ (encodeWALRecord r.watermark r.op r.key r.value ++
               encodeWAL rest)) fuel
             (front.length + (3 + r.key.length + r.value.length + 4 * 2 + 4)) t')
          = some (replayRecords rest t') := by
        intro t'
        rcases rest with _ | ⟨r2, rest2⟩
        · have : front.length + (3 + r.key.length + r.value.length + 4 * 2 + 4) ≥
              (front ++ (encodeWALRecord r.watermark r.op r.key r.value ++
                encodeWAL [])).length := by
            simp only [encodeWAL, List.map_nil, List.flatten_nil,
              List.append_nil, List.length_append, hlen]
            omega
          rw [if_pos this]
          simp [replayRecords]
        · have hop2 := wfRecord_op_length (by
            simp only [List.all_cons, Bool.and_eq_true] at hrest
            exact hrest.1)
          have hlen2 := encodeWALRecord_length r2.watermark r2.op r2.key
            r2.value hop2
          have : ¬ (front.length +
              (3 + r.key.length + r.value.length + 4 * 2 + 4) ≥
              (front ++ (encodeWALRecord r.watermark r.op r.key r.value ++
                encodeWAL (r2 :: rest2))).length) := by
            rw [encodeWAL_cons]
            simp only [List.length_append, hlen, hlen2]
            omega
          rw [if_neg this]
          rw [hoff, hassoc]
          exact ih (front ++ encodeWALRecord r.watermark r.op r.key r.value)
            t' fuel hrest hlrest (by simpa using hfuel)
      by_cases hwm : r.watermark = WatermarkPlaceholder
      · simp only [if_pos hwm, replayEntry_eq hlr hwm t]
        rw [hstep (tableSet t r.key ⟨r.op, r.value⟩)]
        simp [replayRecords, hwm]
      · simp only [if_neg hwm]
        rw [hstep t]
        simp [replayRecords, hwm]

theorem loadLoop_junk (rs : List WALRecord) :
    ∀ (front junk : List Nat) (t : Table) (fuel : Nat),
    rs.all wfRecord = true → rs.all loadableRecord = true →
    junk ≠ [] → parseWALRecord junk = none → rs.length < fuel →
    loadLoop (front ++ (encodeWAL rs ++ junk)) fuel front.length t = none := by
  induction rs with
  | nil =>
    intro front junk t fuel _ _ hjunk hparse hfuel
    cases fuel with
    | zero => simp at hfuel
    | succ fuel =>
      have hjl : junk.length ≠ 0 := fun h => hjunk (List.length_eq_zero.mp h)
      have hcond : front.length < (front ++ (encodeWAL [] ++ junk)).length := by
        simp only [encodeWAL, List.map_nil, List.flatten_nil, List.nil_append,
          List.length_append]
        omega
      rw [loadLoop, if_pos hcond]
      have hread : readWALEntryAt (front ++ (encodeWAL [] ++ junk))
          front.length = none := by
        simp only [readWALEntryAt, encodeWAL, List.map_nil, List.flatten_nil,
          List.nil_append, List.drop_left, hparse]
      rw [hread]
  | cons r rest ih =>
    intro front junk t fuel hwf hload hjunk hparse hfuel
    simp only [List.all_cons, Bool.and_eq_true] at hwf hload
    obtain ⟨hr, hrest⟩ := hwf
    obtain ⟨hlr, hlrest⟩ := hload
    cases fuel with
    | zero => simp at hfuel
    | succ fuel =>
      have hop := wfRecord_op_length hr
      have hlen := encodeWALRecord_length r.watermark r.op r.key r.value hop
      rw [encodeWAL_cons]
      have hshape : (encodeWALRecord r.watermark r.op r.key r.value ++
          encodeWAL rest) ++ junk =
          encodeWALRecord r.watermark r.op r.key r.value ++
            (encodeWAL rest ++ junk) := by
        simp [List.append_assoc]
      rw [hshape]
      have hcond : front.length <
          (front ++ (encodeWALRecord r.watermark r.op r.key r.value ++
            (encodeWAL rest ++ junk))).length := by
        simp only [List.length_append, hlen]
        omega
      rw [loadLoop, if_pos hcond]
      rw [readWALEntryAt_encode front r (encodeWAL rest ++ junk) hr]
      have hjl : junk.length ≠ 0 := fun h => hjunk (List.length_eq_zero.mp h)
      have hnext : ¬ (front.length +
          (3 + r.key.length + r.value.length + 4 * 2 + 4) ≥
          (front ++ (encodeWALRecord r.watermark r.op r.key r.value ++
            (encodeWAL rest ++ junk))).length) := by
        simp only [List.length_append, hlen]
        omega
      have hoff : front.length + (3 + r.key.length + r.value.length + 4 * 2 + 4) =
          (front ++ encodeWALRecord r.watermark r.op r.key r.value).length := by
        simp only [List.length_append, hlen]
        omega
      have hassoc : front ++
          (encodeWALRecord r.watermark r.op r.key r.value ++
            (encodeWAL rest ++ junk)) =
          (front ++ encodeWALRecord r.watermark r.op r.key r.value) ++
            (encodeWAL rest ++ junk) := by
        simp [List.append_assoc]
      by_cases hwm : r.watermark = WatermarkPlaceholder
      · simp only [if_pos hwm, replayEntry_eq hlr hwm t]
        rw [if_neg hnext, hoff, hassoc]
        exact ih (front ++ encodeWALRecord r.watermark r.op r.key r.value)
          junk (tableSet t r.key ⟨r.op, r.value⟩) fuel hrest hlrest hjunk
          hparse (by simpa using hfuel)
      · simp only [if_neg hwm]
        rw [if_neg hnext, hoff, hassoc]
        exact ih (front ++ encodeWALRecord r.watermark r.op r.key r.value)
          junk t fuel hrest hlrest hjunk hparse (by simpa using hfuel)

/-! ## SST files

An SST file is a header followed by tuples (`sst.go`).  The header is the
4-byte magic `"SSTF"`, a 4-byte entry count, the length-prefixed smallest
and longest keys, and a 2-byte version.  A `SET` tuple is the 3 operation
bytes, the length-prefixed key and the length-prefixed value; a `DEL`
tuple ends after the key. -/

/-- ASCII bytes of the SST magic `"SSTF"`. -/
def magicSSTF : List Nat := [83, 83, 84, 70]

/-- The bytes `writeHeader` produces for an `SSTFileHeader`. -/
def encodeSSTHeader (magic : List Nat) (entryCount : Nat)
    (smallestKey longestKey : List Nat) (version : Nat) : List Nat :=
  magic ++ be32 entryCount ++ be32 smallestKey.length ++ smallestKey ++
    be32 longestKey.length ++ longestKey ++ be16 version

/-- The bytes `writeTuple(key, value)` produces: the operation bytes are
always written; a `SET` adds the length-prefixed key and value, a `DEL`
adds the length-prefixed key only, and any other operation adds nothing. -/
def encodeSSTTuple (key : List Nat) (v : Value) : List Nat :=
  v.operation ++
    (if v.operation = opSET then
      be32 key.length ++ key ++ be32 v.value.length ++ v.value
     else if v.operation = opDEL then be32 key.length ++ key
     else [])

/-- The tuple section of an SST file. -/
def encodeSSTTuples (ts : List (List Nat × Value)) : List Nat :=
  (ts.map fun kv => encodeSSTTuple kv.1 kv.2).flatten

/-- The tuple layout in the spec's words, for comparison with the
source-derived `encodeSSTTuple`: "a SET tuple carries op, key and value
and a DEL tuple carries op and key only (no value block)". -/
def specSSTTuple (key : List Nat) (v : Value) : List Nat :=
  if v.operation = opSET then
    opSET ++ be32 key.length ++ key ++ be32 v.value.length ++ v.value
  else opDEL ++ be32 key.length ++ key

/-- Well-formed SST tuple: a `SET` or `DEL` operation, byte values below
256, and lengths below `2^32`. -/
def wfTuple (kv : List Nat × Value) : Bool :=
  (kv.2.operation == opSET || kv.2.operation == opDEL) &&
  decide (kv.1.length < 2 ^ 32) && kv.1.all (· < 256) &&
  decide (kv.2.value.length < 2 ^ 32) && kv.2.value.all (· < 256)

/-- The header-reading prefix of `GetValueByKey`: validate the magic and
consume the header fields, returning the bytes that follow the header. -/
def sstReadHeaderBytes (file : List Nat) : Option (List Nat) :=
  match takeExact 4 file with
  | none => none
  | some (magic, r1) =>
    if magic = magicSSTF then
      match takeExact 4 r1 with
      | none => none
      | some (_, r2) =>
        match takeExact 4 r2 with
        | none => none
        | some (skLenBytes, r3) =>
          match takeExact (beVal skLenBytes) r3 with
          | none => none
          | some (_, r4) =>
            match takeExact 4 r4 with
            | none => none
            | some (lkLenBytes, r5) =>
              match takeExact (beVal lkLenBytes) r5 with
              | none => none
              | some (_, r6) =>
                match takeExact 2 r6 with
                | none => none
                | some (_, r7) => some r7
    else none

/-- Outcome of the per-file lookup, the source's `(value, int, error)`
triple with codes `1` (found), `0` (deleted), `3` (not found),
`2` (I/O or format error). -/
inductive SSTGetResult where
  | found (value : List Nat)
  | tombstoned
  | notFound
  | ioError
  deriving DecidableEq, Repr

/-- The tuple-scanning loop of `GetValueByKey`: read tuples in stored order;
a clean EOF before an operation field ends the scan with "not found"; a
`SET` whose key matches returns its value, a `DEL` whose key matches
reports the tombstone; all other tuples are skipped. -/
def sstGetLoop (key : List Nat) (fuel : Nat) (bytes : List Nat) :
    SSTGetResult :=
  match fuel with
  | 0 => .ioError
  | fuel + 1 =>
    if bytes = [] then .notFound
    else
      match takeExact 3 bytes with
      | none => .ioError
      | some (op, r1) =>
        match takeExact 4 r1 with
        | none => .ioError
        | some (keyLenBytes, r2) =>
          match takeExact (beVal keyLenBytes) r2 with
          | none => .ioError
          | some (keyBytes, r3) =>
            if op = opSET then
              match takeExact 4 r3 with
              | none => .ioError
              | some (valLenBytes, r4) =>
                match takeExact (beVal valLenBytes) r4 with
                | none => .ioError
                | some (valBytes, r5) =>
                  if key = keyBytes then .found valBytes
                  else sstGetLoop key fuel r5
            else if op = opDEL then
              (if key = keyBytes then .tombstoned else sstGetLoop key fuel r3)
            else sstGetLoop key fuel r3

/-- `SSTFile.GetValueByKey`: read the header, then scan the tuples. -/
def sstGet (file key : List Nat) : SSTGetResult :=
  match sstReadHeaderBytes file with
  | none => .ioError
  | some rest => sstGetLoop key (rest.length + 1) rest

/-- Outcome of `FindValueInSSTFiles`. -/
inductive FindResult where
  | found (value : List Nat)
  | deleted
  | notFoundAny
  deriving DecidableEq, Repr

/-- `FindValueInSSTFiles` over the SST contents in the order the source
visits them (descending file number, newest first): the first file
answering found (`x == 1`) or deleted (`x == 0`) decides; not-found and
error outcomes move on to the next file. -/
def findValueInSSTList (ssts : List (List Nat)) (key : List Nat) :
    FindResult :=
  match ssts with
  | [] => .notFoundAny
  | newest :: older =>
    match sstGet newest key with
    | .found v => .found v
    | .tombstoned => .deleted
    | _ => findValueInSSTList older key

/-- The smallest-key tracking step of `FlushToDisk`:
`if smallestKey == nil || bytes.Compare(key, smallestKey) < 0`. -/
def updSmallest (acc : Option (List Nat)) (key : List Nat) :
    Option (List Nat) :=
  match acc with
  | none => some key
  | some s => if bytesCmp key s = .lt then some key else some s

/-- The longest-key tracking step of `FlushToDisk`:
`if longestKey == nil || bytes.Compare(key, longestKey) > 0`. -/
def updLongest (acc : Option (List Nat)) (key : List Nat) :
    Option (List Nat) :=
  match acc with
  | none => some key
  | some s => if bytesCmp key s = .gt then some key else some s

/-- `MemDB.FlushToDisk`: nothing to do on an empty memtable; otherwise
walk the memtable in iteration order collecting the tuples and the
smallest/longest keys, emit the header and the tuples as a new SST, and
call `UpdateWatermark` — whose error the source discards, so a failed
rewrite (before the rename) leaves the WAL unchanged.  Returns the bytes
of the SST written (if any) and the resulting WAL file. -/
def flushToDisk (m : MemDB) : Option (List Nat) × List Nat :=
  match m.table with
  | [] => (none, m.wal)
  | _ =>
    let smallestKey := m.table.foldl (fun a kv => updSmallest a kv.1) none
    let longestKey := m.table.foldl (fun a kv => updLongest a kv.1) none
    let sst := encodeSSTHeader magicSSTF m.table.length
      (smallestKey.getD []) (longestKey.getD []) 1 ++ encodeSSTTuples m.table
    (some sst, (updateWatermark m.wal).getD m.wal)

/-! ## SST file numbering -/

/-- ASCII decimal digit test. -/
def isDigitByte (c : Nat) : Bool := 48 ≤ c && c ≤ 57

/-- `fmt.Sscanf(name, "sst%03d", &num)`: require the `sst` prefix, then
read at most three leading digits (at least one) as the number; trailing
bytes are ignored. -/
def scanSSTNum (name : List Nat) : Option Nat :=
  match name with
  | 115 :: 115 :: 116 :: rest =>
    let ds := (rest.takeWhile isDigitByte).take 3
    if ds = [] then none
    else some (ds.foldl (fun a c => a * 10 + (c - 48)) 0)
  | _ => none

/-- `findLastSSTNumber`: fold over the directory listing keeping the
largest successfully scanned number, `0` when none scans. -/
def findLastSSTNumber (files : List (List Nat)) : Nat :=
  files.foldl (fun res f =>
    match scanSSTNum f with
    | some num => if num > res then num else res
    | none => res) 0

/-- The number `NewSSTFile` assigns to the file it creates: `lastSST + 1`. -/
def newSSTFileNumber (files : List (List Nat)) : Nat :=
  findLastSSTNumber files + 1

/-- `fmt.Sprintf("sst%03d", n)` for `n ≤ 999`: the name `sst` followed by
three zero-padded decimal digits. -/
def canonicalSSTName (n : Nat) : List Nat :=
  [115, 115, 116, 48 + n / 100 % 10, 48 + n / 10 % 10, 48 + n % 10]

/-- First-match semantics of the per-file lookup over the decoded tuples:
the earliest tuple whose key matches decides the outcome (value of a `SET`,
tombstone of a `DEL`); no match means not found. -/
def sstScanSpec (ts : List (List Nat × Value)) (key : List Nat) :
    SSTGetResult :=
  match ts with
  | [] => .notFound
  | (k, v) :: rest =>
    if v.operation = opSET then
      if key = k then .found v.value else sstScanSpec rest key
    else if key = k then .tombstoned else sstScanSpec rest key

theorem be16_length (n : Nat) : (be16 n).length = 2 := rfl

theorem opSET_length : opSET.length = 3 := rfl

theorem opDEL_length : opDEL.length = 3 := rfl

theorem magicSSTF_length : magicSSTF.length = 4 := rfl

theorem bytesLe_refl (a : List Nat) : bytesLe a a := by
  intro h
  have h2 : bytesCmp a a = .eq := (bytesCmp_eq_iff a a).mpr rfl
  rw [h] at h2
  exact Ordering.noConfusion h2

theorem sstReadHeaderBytes_encode (entryCount version : Nat)
    (sk lk suffix : List Nat) (hsk : sk.length < 2 ^ 32)
    (hlk : lk.length < 2 ^ 32) :
    sstReadHeaderBytes
        (encodeSSTHeader magicSSTF entryCount sk lk version ++ suffix) =
      some suffix := by
  simp only [encodeSSTHeader, List.append_assoc, sstReadHeaderBytes,
    takeExact_append, be32_length, be16_length, magicSSTF_length,
    beVal_be32 _ hsk, beVal_be32 _ hlk, if_pos rfl, if_true]

theorem encodeSSTTuples_cons (kv : List Nat × Value)
    (ts : List (List Nat × Value)) :
    encodeSSTTuples (kv :: ts) =
      encodeSSTTuple kv.1 kv.2 ++ encodeSSTTuples ts := by
  simp [encodeSSTTuples]

theorem sstGetLoop_encode (ts : List (List Nat × Value)) :
    ∀ (key : List Nat) (fuel : Nat), ts.all wfTuple = true →
    (encodeSSTTuples ts).length < fuel →
    sstGetLoop key fuel (encodeSSTTuples ts) = sstScanSpec ts key := by
  induction ts with
  | nil =>
    intro key fuel _ hfuel
    cases fuel with
    | zero => exact absurd hfuel (Nat.not_lt_zero _)
    | succ fuel => simp [sstGetLoop, encodeSSTTuples, sstScanSpec]
  | cons kv rest ih =>
    intro key fuel hwf hfuel
    obtain ⟨k, v⟩ := kv
    simp only [List.all_cons, Bool.and_eq_true] at hwf
    obtain ⟨hkv, hrest⟩ := hwf
    have hkv' := hkv
    simp only [wfTuple, Bool.and_eq_true, Bool.or_eq_true, beq_iff_eq,
      decide_eq_true_eq] at hkv'
    obtain ⟨⟨⟨⟨hop, hklen⟩, _⟩, hvlen⟩, _⟩ := hkv'
    cases fuel with
    | zero => exact absurd hfuel (Nat.not_lt_zero _)
    | succ fuel =>
      rw [encodeSSTTuples_cons] at hfuel ⊢
      rcases hop with hset | hdel
      · have henc : encodeSSTTuple k v ++ encodeSSTTuples rest =
            opSET ++ (be32 k.length ++ (k ++ (be32 v.value.length ++
              (v.value ++ encodeSSTTuples rest)))) := by
          simp [encodeSSTTuple, hset, List.append_assoc]
        rw [henc] at hfuel ⊢
        simp only [sstGetLoop]
        have hne : opSET ++ (be32 k.length ++ (k ++ (be32 v.value.length ++
            (v.value ++ encodeSSTTuples rest)))) ≠ [] := by
          simp [opSET]
        rw [if_neg hne]
        simp only [takeExact_append, opSET_length, be32_length,
          beVal_be32 _ hklen, beVal_be32 _ hvlen, eq_self_iff_true, if_true,
          ite_true]
        by_cases hk : key = k
        · rw [if_pos hk]
          simp [sstScanSpec, hset, hk]
        · rw [if_neg hk]
          have hfuel' : (encodeSSTTuples rest).length < fuel := by
            simp only [List.length_append, opSET_length, be32_length] at hfuel
            omega
          rw [ih key fuel hrest hfuel']
          simp [sstScanSpec, hset, hk]
      · have henc : encodeSSTTuple k v ++ encodeSSTTuples rest =
            opDEL ++ (be32 k.length ++ (k ++ encodeSSTTuples rest)) := by
          simp [encodeSSTTuple, hdel, opDEL, opSET, List.append_assoc]
        rw [henc] at hfuel ⊢
        simp only [sstGetLoop]
        have hne : opDEL ++ (be32 k.length ++ (k ++ encodeSSTTuples rest)) ≠ [] := by
          simp [opDEL]
        rw [if_neg hne]
        have hnotset : opDEL ≠ opSET := by simp [opDEL, opSET]
        simp only [takeExact_append, opDEL_length, be32_length,
          beVal_be32 _ hklen, eq_self_iff_true, if_true, ite_true,
          if_neg hnotset]
        by_cases hk : key = k
        · rw [if_pos hk]
          simp [sstScanSpec, hdel, hk, opDEL, opSET]
        · rw [if_neg hk]
          have hfuel' : (encodeSSTTuples rest).length < fuel := by
            simp only [List.length_append, opDEL_length, be32_length] at hfuel
            omega
          rw [ih key fuel hrest hfuel']
          simp [sstScanSpec, hdel, hk, opDEL, opSET]

theorem sstGet_encode (entryCount version : Nat) (sk lk key : List Nat)
    (ts : List (List Nat × Value)) (hsk : sk.length < 2 ^ 32)
    (hlk : lk.length < 2 ^ 32) (hts : ts.all wfTuple = true) :
    sstGet (encodeSSTHeader magicSSTF entryCount sk lk version ++
      encodeSSTTuples ts) key = sstScanSpec ts key := by
  simp only [sstGet,
    sstReadHeaderBytes_encode entryCount version sk lk _ hsk hlk]
  exact sstGetLoop_encode ts key _ hts (Nat.lt_succ_self _)

theorem foldl_updSmallest_some (t : List (List Nat × Value)) :
    ∀ s : List Nat, ∃ s',
      t.foldl (fun a kv => updSmallest a kv.1) (some s) = some s' ∧
      (s' = s ∨ ∃ kv ∈ t, kv.1 = s') ∧ bytesLe s' s ∧
      ∀ kv ∈ t, bytesLe s' kv.1 := by
  induction t with
  | nil =>
    intro s
    exact ⟨s, rfl, Or.inl rfl, bytesLe_refl s, by simp⟩
  | cons kv rest ih =>
    intro s
    simp only [List.foldl_cons]
    by_cases hlt : bytesCmp kv.1 s = .lt
    · have hstep : updSmallest (some s) kv.1 = some kv.1 := by
        simp [updSmallest, hlt]
      rw [hstep]
      obtain ⟨s', h1, h2, h3, h4⟩ := ih kv.1
      refine ⟨s', h1, ?_, ?_, ?_⟩
      · rcases h2 with h | ⟨kv', hmem, hk⟩
        · exact Or.inr ⟨kv, List.mem_cons_self kv rest, h.symm⟩
        · exact Or.inr ⟨kv', List.mem_cons_of_mem _ hmem, hk⟩
      · exact bytesLe_trans h3 (bytesLe_of_lt hlt)
      · intro kv' hmem
        rcases List.mem_cons.mp hmem with h | h
        · rw [h]
          exact h3
        · exact h4 kv' h
    · have hstep : updSmallest (some s) kv.1 = some s := by
        simp [updSmallest, hlt]
      rw [hstep]
      obtain ⟨s', h1, h2, h3, h4⟩ := ih s
      refine ⟨s', h1, ?_, h3, ?_⟩
      · rcases h2 with h | ⟨kv', hmem, hk⟩
        · exact Or.inl h
        · exact Or.inr ⟨kv', List.mem_cons_of_mem _ hmem, hk⟩
      · intro kv' hmem
        rcases List.mem_cons.mp hmem with h | h
        · rw [h]
          exact bytesLe_trans h3 (bytesLe_of_not_lt hlt)
        · exact h4 kv' h

theorem foldl_updSmallest_min (t : List (List Nat × Value)) (hne : t ≠ []) :
    ∃ s, t.foldl (fun a kv => updSmallest a kv.1) none = some s ∧
      (∃ kv ∈ t, kv.1 = s) ∧ ∀ kv ∈ t, bytesLe s kv.1 := by
  rcases t with _ | ⟨kv, rest⟩
  · exact absurd rfl hne
  · simp only [List.foldl_cons]
    have hstep : updSmallest none kv.1 = some kv.1 := rfl
    rw [hstep]
    obtain ⟨s', h1, h2, h3, h4⟩ := foldl_updSmallest_some rest kv.1
    refine ⟨s', h1, ?_, ?_⟩
    · rcases h2 with h | ⟨kv', hmem, hk⟩
      · exact ⟨kv, List.mem_cons_self kv rest, h.symm⟩
      · exact ⟨kv', List.mem_cons_of_mem _ hmem, hk⟩
    · intro kv' hmem
      rcases List.mem_cons.mp hmem with h | h
      · rw [h]
        exact h3
      · exact h4 kv' h

theorem foldl_updLongest_some (t : List (List Nat × Value)) :
    ∀ s : List Nat, ∃ s',
      t.foldl (fun a kv => updLongest a kv.1) (some s) = some s' ∧
      (s' = s ∨ ∃ kv ∈ t, kv.1 = s') ∧ bytesLe s s' ∧
      ∀ kv ∈ t, bytesLe kv.1 s' := by
  induction t with
  | nil =>
    intro s
    exact ⟨s, rfl, Or.inl rfl, bytesLe_refl s, by simp⟩
  | cons kv rest ih =>
    intro s
    simp only [List.foldl_cons]
    by_cases hgt : bytesCmp kv.1 s = .gt
    · have hstep : updLongest (some s) kv.1 = some kv.1 := by
        simp [updLongest, hgt]
      rw [hstep]
      obtain ⟨s', h1, h2, h3, h4⟩ := ih kv.1
      have hsk : bytesLe s kv.1 :=
        bytesLe_of_lt ((bytesCmp_gt_iff_lt kv.1 s).mp hgt)
      refine ⟨s', h1, ?_, bytesLe_trans hsk h3, ?_⟩
      · rcases h2 with h | ⟨kv', hmem, hk⟩
        · exact Or.inr ⟨kv, List.mem_cons_self kv rest, h.symm⟩
        · exact Or.inr ⟨kv', List.mem_cons_of_mem _ hmem, hk⟩
      · intro kv' hmem
        rcases List.mem_cons.mp hmem with h | h
        · rw [h]
          exact h3
        · exact h4 kv' h
    · have hstep : updLongest (some s) kv.1 = some s := by
        simp [updLongest, hgt]
      rw [hstep]
      obtain ⟨s', h1, h2, h3, h4⟩ := ih s
      refine ⟨s', h1, ?_, h3, ?_⟩
      · rcases h2 with h | ⟨kv', hmem, hk⟩
        · exact Or.inl h
        · exact Or.inr ⟨kv', List.mem_cons_of_mem _ hmem, hk⟩
      · intro kv' hmem
        rcases List.mem_cons.mp hmem with h | h
        · rw [h]
          exact bytesLe_trans hgt h3
        · exact h4 kv' h

theorem foldl_updLongest_max (t : List (List Nat × Value)) (hne : t ≠ []) :
    ∃ s, t.foldl (fun a kv => updLongest a kv.1) none = some s ∧
      (∃ kv ∈ t, kv.1 = s) ∧ ∀ kv ∈ t, bytesLe kv.1 s := by
  rcases t with _ | ⟨kv, rest⟩
  · exact absurd rfl hne
  · simp only [List.foldl_cons]
    have hstep : updLongest none kv.1 = some kv.1 := rfl
    rw [hstep]
    obtain ⟨s', h1, h2, h3, h4⟩ := foldl_updLongest_some rest kv.1
    refine ⟨s', h1, ?_, ?_⟩
    · rcases h2 with h | ⟨kv', hmem, hk⟩
      · exact ⟨kv, List.mem_cons_self kv rest, h.symm⟩
      · exact ⟨kv', List.mem_cons_of_mem _ hmem, hk⟩
    · intro kv' hmem
      rcases List.mem_cons.mp hmem with h | h
      · rw [h]
        exact h3
      · exact h4 kv' h

theorem encodeSSTTuple_eq_spec (kv : List Nat × Value)
    (h : wfTuple kv = true) :
    encodeSSTTuple kv.1 kv.2 = specSSTTuple kv.1 kv.2 := by
  simp only [wfTuple, Bool.and_eq_true, Bool.or_eq_true, beq_iff_eq] at h
  rcases h.1.1.1.1 with hset | hdel
  · simp [encodeSSTTuple, specSSTTuple, hset]
  · simp [encodeSSTTuple, specSSTTuple, hdel, opDEL, opSET,
      List.append_assoc]

theorem encodeSSTTuples_eq_spec (ts : List (List Nat × Value))
    (h : ts.all wfTuple = true) :
    encodeSSTTuples ts = (ts.map fun kv => specSSTTuple kv.1 kv.2).flatten := by
  induction ts with
  | nil => rfl
  | cons kv rest ih =>
    simp only [List.all_cons, Bool.and_eq_true] at h
    rw [encodeSSTTuples_cons, List.map_cons, List.flatten_cons,
      encodeSSTTuple_eq_spec kv h.1, ih h.2]

theorem scanSSTNum_canonical (n : Nat) (h : n ≤ 999) :
    scanSSTNum (canonicalSSTName n) = some n := by
  have h1 : isDigitByte (48 + n / 100 % 10) = true := by
    simp only [isDigitByte, Bool.and_eq_true, decide_eq_true_eq]
    omega
  have h2 : isDigitByte (48 + n / 10 % 10) = true := by
    simp only [isDigitByte, Bool.and_eq_true, decide_eq_true_eq]
    omega
  have h3 : isDigitByte (48 + n % 10) = true := by
    simp only [isDigitByte, Bool.and_eq_true, decide_eq_true_eq]
    omega
  simp only [canonicalSSTName, scanSSTNum, List.takeWhile_cons, h1, h2, h3,
    if_true, List.takeWhile_nil, List.take_succ_cons, List.take_nil,
    List.foldl_cons, List.foldl_nil, Option.some.injEq,
    reduceCtorEq, if_false]
  omega

theorem canonicalSSTName_inj {n m : Nat} (hn : n ≤ 999) (hm : m ≤ 999)
    (h : canonicalSSTName n = canonicalSSTName m) : n = m := by
  simp only [canonicalSSTName, List.cons.injEq, and_true] at h
  omega

theorem findLastSSTNumber_fold (files : List (List Nat)) :
    ∀ acc : Nat,
    (∀ f ∈ files, (∃ n, n ≤ 999 ∧ f = canonicalSSTName n) ∨
      scanSSTNum f = none) →
    ∃ m, files.foldl (fun res f =>
        match scanSSTNum f with
        | some num => if num > res then num else res
        | none => res) acc = m ∧
      (m = acc ∨ (m ≤ 999 ∧ canonicalSSTName m ∈ files)) ∧ acc ≤ m ∧
      ∀ n, n ≤ 999 → canonicalSSTName n ∈ files → n ≤ m := by
  induction files with
  | nil =>
    intro acc _
    exact ⟨acc, rfl, Or.inl rfl, Nat.le_refl acc, by simp⟩
  | cons f rest ih =>
    intro acc hfiles
    have hhead := hfiles f (List.mem_cons_self f rest)
    have htail : ∀ g ∈ rest, (∃ n, n ≤ 999 ∧ g = canonicalSSTName n) ∨
        scanSSTNum g = none :=
      fun g hg => hfiles g (List.mem_cons_of_mem f hg)
    simp only [List.foldl_cons]
    rcases hhead with ⟨n0, hn0, hf⟩ | hnone
    · subst hf
      rw [scanSSTNum_canonical n0 hn0]
      obtain ⟨m, hm1, hm2, hm3, hm4⟩ := ih (if n0 > acc then n0 else acc) htail
      refine ⟨m, hm1, ?_, ?_, ?_⟩
      · rcases hm2 with h | ⟨hle, hmem⟩
        · by_cases hcase : n0 > acc
          · rw [if_pos hcase] at h
            exact Or.inr ⟨h ▸ hn0, h ▸ List.mem_cons_self _ rest⟩
          · rw [if_neg hcase] at h
            exact Or.inl h
        · exact Or.inr ⟨hle, List.mem_cons_of_mem _ hmem⟩
      · have : acc ≤ if n0 > acc then n0 else acc := by
          by_cases hcase : n0 > acc
          · rw [if_pos hcase]
            omega
          · rw [if_neg hcase]
        exact Nat.le_trans this hm3
      · intro n hn hmem
        rcases List.mem_cons.mp hmem with h | h
        · have hn0n : n = n0 := canonicalSSTName_inj hn hn0 h
          subst hn0n
          have : n ≤ if n > acc then n else acc := by
            by_cases hcase : n > acc
            · rw [if_pos hcase]
            · rw [if_neg hcase]
              omega
          exact Nat.le_trans this hm3
        · exact hm4 n hn h
    · rw [hnone]
      obtain ⟨m, hm1, hm2, hm3, hm4⟩ := ih acc htail
      refine ⟨m, hm1, ?_, hm3, ?_⟩
      · rcases hm2 with h | ⟨hle, hmem⟩
        · exact Or.inl h
        · exact Or.inr ⟨hle, List.mem_cons_of_mem _ hmem⟩
      · intro n hn hmem
        rcases List.mem_cons.mp hmem with h | h
        · rw [← h] at hnone
          rw [scanSSTNum_canonical n hn] at hnone
          exact Option.noConfusion hnone
        · exact hm4 n hn h

theorem load_encode (rs : List WALRecord) (hwf : rs.all wfRecord = true)
    (hload : rs.all loadableRecord = true) :
    load (encodeWAL rs) = some (replayRecords rs []) := by
  rcases rs with _ | ⟨r, rest⟩
  · simp [load, encodeWAL, replayRecords]
  · have hop := wfRecord_op_length (by
      simp only [List.all_cons, Bool.and_eq_true] at hwf
      exact hwf.1)
    have hlen := encodeWALRecord_length r.watermark r.op r.key r.value hop
    have hpos : (encodeWAL (r :: rest)).length ≠ 0 := by
      rw [encodeWAL_cons]
      simp only [List.length_append, hlen]
      omega
    rw [load, if_neg hpos]
    have := loadLoop_encode (r :: rest) [] [] (encodeWAL (r :: rest)).length
      hwf hload (encodeWAL_length_ge (r :: rest) hwf)
    simpa using this

theorem load_junk (rs : List WALRecord) (junk : List Nat)
    (hwf : rs.all wfRecord = true) (hload : rs.all loadableRecord = true)
    (hjunk : junk ≠ []) (hparse : parseWALRecord junk = none) :
    load (encodeWAL rs ++ junk) = none := by
  have hjl : junk.length ≠ 0 := fun h => hjunk (List.length_eq_zero.mp h)
  have hpos : (encodeWAL rs ++ junk).length ≠ 0 := by
    simp only [List.length_append]
    omega
  rw [load, if_neg hpos]
  have hfuel : rs.length < (encodeWAL rs ++ junk).length := by
    have := encodeWAL_length_ge rs hwf
    simp only [List.length_append]
    omega
  have := loadLoop_junk rs [] junk [] (encodeWAL rs ++ junk).length
    hwf hload hjunk hparse hfuel
  simpa using this

/-! ## Claims -/

/-- C1 (code bug in the source): the claim asserts that the WAL append of
the matching record happens before the memtable update and that on a WAL
failure the memtable is left unchanged.  `MemDB.Set` and `MemDB.Del`
update the skiplist before attempting the append, so when the append
fails the operation reports the error with the entry already installed:
from an empty store a failed `Set k v` leaves `k ↦ SET v` in the
memtable, and a failed `Del k` on a store holding `k ↦ SET v` leaves the
tombstone `k ↦ DEL v`. -/
theorem claim1_memtable_mutated_despite_wal_failure :
    ((memSet true ⟨[], []⟩ [107] [118]).2 = false ∧
      (memSet true ⟨[], []⟩ [107] [118]).1.table =
        [([107], ⟨opSET, [118]⟩)]) ∧
    ((memDel true ⟨[([107], ⟨opSET, [118]⟩)], []⟩ [107]).2 = none ∧
      (memDel true ⟨[([107], ⟨opSET, [118]⟩)], []⟩ [107]).1.table =
        [([107], ⟨opDEL, [118]⟩)]) := by
  decide

/-- C2 (counterexample): a WAL holding one valid live `SET` record
followed by a truncated tail (four zero bytes: a well-formed watermark cut
off before the operation field) makes `Load` fail with an error instead of
stopping replay at the truncation and continuing startup as the claim
demands. -/
theorem claim2_counterexample :
    parseWALRecord [0, 0, 0, 0] = none ∧
    load (encodeWALRecord WatermarkPlaceholder opSET [97] [98] ++
      [0, 0, 0, 0]) = none ∧
    load (encodeWALRecord WatermarkPlaceholder opSET [97] [98] ++
      [0, 0, 0, 0]) ≠
      some (replayRecords [⟨WatermarkPlaceholder, opSET, [97], [98]⟩] []) := by
  decide

/-- C2 (amended): `Load`, starting from an empty memtable, processes WAL
records in file order, replays exactly the placeholder-watermark records
(`SET` or `DEL` as written) and skips retired ones; but any record-parse
failure — at the tail of the file just as mid-file — is fatal to startup:
`Load` returns the error. -/
theorem claim2_load_replays_and_any_parse_failure_fatal
    (rs : List WALRecord) (hwf : rs.all wfRecord = true)
    (hload : rs.all loadableRecord = true) :
    load (encodeWAL rs) = some (replayRecords rs []) ∧
    ∀ junk : List Nat, junk ≠ [] → parseWALRecord junk = none →
      load (encodeWAL rs ++ junk) = none :=
  ⟨load_encode rs hwf hload,
    fun junk hjunk hparse => load_junk rs junk hwf hload hjunk hparse⟩

/-- Witness for C2 at a two-record WAL (a live `SET`, then a retired
`DEL`). -/
theorem claim2_witness :
    (([⟨WatermarkPlaceholder, opSET, [97], [98]⟩,
       ⟨Watermark, opDEL, [99], [100]⟩] : List WALRecord).all wfRecord =
        true ∧
     ([⟨WatermarkPlaceholder, opSET, [97], [98]⟩,
       ⟨Watermark, opDEL, [99], [100]⟩] : List WALRecord).all
         loadableRecord = true) ∧
    (load (encodeWAL [⟨WatermarkPlaceholder, opSET, [97], [98]⟩,
        ⟨Watermark, opDEL, [99], [100]⟩]) =
      some (replayRecords [⟨WatermarkPlaceholder, opSET, [97], [98]⟩,
        ⟨Watermark, opDEL, [99], [100]⟩] []) ∧
     ∀ junk : List Nat, junk ≠ [] → parseWALRecord junk = none →
       load (encodeWAL [⟨WatermarkPlaceholder, opSET, [97], [98]⟩,
         ⟨Watermark, opDEL, [99], [100]⟩] ++ junk) = none) :=
  ⟨⟨by decide, by decide⟩,
    claim2_load_replays_and_any_parse_failure_fatal _ (by decide) (by decide)⟩

/-- C3 (code bug in the source): the claim asserts that `Get` on a key
with no memtable entry terminates normally with one of the contract's
outcomes; the source dereferences the nil skiplist element before the nil
check, so such a `Get` panics — here on an empty store. -/
theorem claim3_get_miss_panics : memGet ⟨[], []⟩ [120] = .panic := rfl

/-- C4 (code bug in the source): the claim's precedence chain requires a
memtable miss to fall through to the SSTs in descending file order; the
source panics on the miss (the `FindValueInSSTFiles` call is unreachable
and its result discarded anyway), even though the SST directory holds a
live `SET` for the key and the per-file lookup over it would return the
value. -/
theorem claim4_miss_panics_instead_of_consulting_ssts :
    memGet ⟨[([97], ⟨opSET, [98]⟩)], []⟩ [120] = .panic ∧
    findValueInSSTList
      [encodeSSTHeader magicSSTF 1 [120] [120] 1 ++
        encodeSSTTuples [([120], ⟨opSET, [49]⟩)]] [120] = .found [49] := by
  decide

/-- C5: `UpdateWatermark` rewrites every WAL record into the sibling file
with the watermark set to the retired value `0xDEAD`, preserving each
record's operation, key, value and their order (the rename then installs
the sibling as the WAL); no rewritten record carries the placeholder, and
`FlushToDisk` on a non-empty memtable leaves exactly this retired WAL
behind. -/
theorem claim5_updateWatermark_retires_every_record (rs : List WALRecord)
    (m : MemDB) (hwf : rs.all wfRecord = true)
    (hwal : m.wal = encodeWAL rs) (hne : m.table ≠ []) :
    updateWatermark m.wal = some (encodeWAL (rs.map retire)) ∧
    (∀ r ∈ rs.map retire, r.watermark ≠ WatermarkPlaceholder) ∧
    (flushToDisk m).2 = encodeWAL (rs.map retire) := by
  have h1 := updateWatermark_encode rs hwf
  refine ⟨by rw [hwal]; exact h1, ?_, ?_⟩
  · intro r hr
    simp only [List.mem_map] at hr
    obtain ⟨r0, _, hr0⟩ := hr
    rw [← hr0]
    intro hcontra
    simp [retire, Watermark, WatermarkPlaceholder] at hcontra
  · rcases htab : m.table with _ | ⟨kv, rest⟩
    · exact absurd htab hne
    · simp only [flushToDisk, htab]
      rw [hwal, h1]
      rfl

/-- Witness for C5 at a one-record WAL and a one-entry memtable. -/
theorem claim5_witness :
    (([⟨WatermarkPlaceholder, opSET, [97], [98]⟩] :
        List WALRecord).all wfRecord = true ∧
     (MemDB.mk [([97], ⟨opSET, [98]⟩)]
        (encodeWAL [⟨WatermarkPlaceholder, opSET, [97], [98]⟩])).wal =
       encodeWAL [⟨WatermarkPlaceholder, opSET, [97], [98]⟩] ∧
     (MemDB.mk [([97], ⟨opSET, [98]⟩)]
        (encodeWAL [⟨WatermarkPlaceholder, opSET, [97], [98]⟩])).table ≠
       []) ∧
    (updateWatermark (MemDB.mk [([97], ⟨opSET, [98]⟩)]
        (encodeWAL [⟨WatermarkPlaceholder, opSET, [97], [98]⟩])).wal =
      some (encodeWAL
        ([⟨WatermarkPlaceholder, opSET, [97], [98]⟩].map retire)) ∧
     (∀ r ∈ ([⟨WatermarkPlaceholder, opSET, [97], [98]⟩] :
        List WALRecord).map retire, r.watermark ≠ WatermarkPlaceholder) ∧
     (flushToDisk (MemDB.mk [([97], ⟨opSET, [98]⟩)]
        (encodeWAL [⟨WatermarkPlaceholder, opSET, [97], [98]⟩]))).2 =
       encodeWAL ([⟨WatermarkPlaceholder, opSET, [97], [98]⟩].map retire)) :=
  ⟨⟨by decide, rfl, by decide⟩,
    claim5_updateWatermark_retires_every_record
      [⟨WatermarkPlaceholder, opSET, [97], [98]⟩]
      (MemDB.mk [([97], ⟨opSET, [98]⟩)]
        (encodeWAL [⟨WatermarkPlaceholder, opSET, [97], [98]⟩]))
      (by decide) rfl (by decide)⟩

/-- C6 (counterexample): on a WAL holding a single live `SET` record, the
claim demands `Clear` keep it as a live (placeholder-watermark) record —
returning the file unchanged — but `Clear` re-appends it with the retired
watermark, producing a different file. -/
theorem claim6_counterexample :
    clear (encodeWAL [⟨WatermarkPlaceholder, opSET, [97], [98]⟩]) =
      some (encodeWAL [⟨Watermark, opSET, [97], [98]⟩]) ∧
    clear (encodeWAL [⟨WatermarkPlaceholder, opSET, [97], [98]⟩]) ≠
      some (encodeWAL [⟨WatermarkPlaceholder, opSET, [97], [98]⟩]) := by
  decide

/-- C6 (amended): `Clear` rewrites the WAL so that the resulting file
contains exactly the records whose original watermark was the placeholder,
in their original order, but each rewritten with the retired watermark
`0xDEAD` rather than kept live; every record whose watermark was retired
is dropped. -/
theorem claim6_clear_keeps_live_records_rewritten_retired
    (rs : List WALRecord) (hwf : rs.all wfRecord = true) :
    clear (encodeWAL rs) = some (encodeWAL
      (((rs.filter fun r => r.watermark == WatermarkPlaceholder)).map
        retire)) :=
  clear_encode rs hwf

/-- Witness for C6 at a WAL with one live and one retired record. -/
theorem claim6_witness :
    (([⟨WatermarkPlaceholder, opSET, [97], [98]⟩,
       ⟨Watermark, opDEL, [99], [100]⟩] : List WALRecord).all wfRecord =
      true) ∧
    clear (encodeWAL [⟨WatermarkPlaceholder, opSET, [97], [98]⟩,
        ⟨Watermark, opDEL, [99], [100]⟩]) =
      some (encodeWAL
        ((([⟨WatermarkPlaceholder, opSET, [97], [98]⟩,
            ⟨Watermark, opDEL, [99], [100]⟩] : List WALRecord).filter
          fun r => r.watermark == WatermarkPlaceholder).map retire)) :=
  ⟨by decide, claim6_clear_keeps_live_records_rewritten_retired _ (by decide)⟩

/-- C7: on a non-empty memtable (bytewise-ascending, entries all `SET` or
`DEL`), `FlushToDisk` writes one SST whose header carries the magic
`"SSTF"`, the entry count (one per memtable entry), the bytewise-smallest
and bytewise-largest memtable keys, and version 1, followed by one tuple
per entry in ascending key order, where a `SET` tuple carries op, key and
value and a `DEL` tuple carries op and key only (no value block). -/
theorem claim7_flush_writes_header_and_sorted_tuples (m : MemDB)
    (hne : m.table ≠ []) (hwf : m.table.all wfTuple = true)
    (hsorted : m.table.Chain' (fun a b => bytesCmp a.1 b.1 = .lt)) :
    ∃ smallest longest wal',
      flushToDisk m = (some (encodeSSTHeader magicSSTF m.table.length
          smallest longest 1 ++
          (m.table.map fun kv => specSSTTuple kv.1 kv.2).flatten), wal') ∧
      (∃ kv ∈ m.table, kv.1 = smallest) ∧
      (∀ kv ∈ m.table, bytesLe smallest kv.1) ∧
      (∃ kv ∈ m.table, kv.1 = longest) ∧
      (∀ kv ∈ m.table, bytesLe kv.1 longest) ∧
      (m.table.map fun kv => kv.1).Chain' (fun a b => bytesCmp a b = .lt) := by
  obtain ⟨smin, hs1, hs2, hs3⟩ := foldl_updSmallest_min m.table hne
  obtain ⟨smax, hl1, hl2, hl3⟩ := foldl_updLongest_max m.table hne
  have hmatch : flushToDisk m = (some (encodeSSTHeader magicSSTF
      m.table.length
      ((m.table.foldl (fun a kv => updSmallest a kv.1) none).getD [])
      ((m.table.foldl (fun a kv => updLongest a kv.1) none).getD []) 1 ++
      encodeSSTTuples m.table), (updateWatermark m.wal).getD m.wal) := by
    rcases htab : m.table with _ | ⟨kv, rest⟩
    · exact absurd htab hne
    · simp only [flushToDisk, htab]
  refine ⟨smin, smax, (updateWatermark m.wal).getD m.wal, ?_, hs2, hs3,
    hl2, hl3, ?_⟩
  · rw [hmatch, hs1, hl1, encodeSSTTuples_eq_spec m.table hwf]
    rfl
  · exact (List.chain'_map _).mpr hsorted

/-- Witness for C7 at a two-entry memtable holding a `SET` and a `DEL`. -/
theorem claim7_witness :
    ((MemDB.mk [([97], ⟨opSET, [98]⟩), ([99], ⟨opDEL, [100]⟩)] []).table ≠
        [] ∧
     (MemDB.mk [([97], ⟨opSET, [98]⟩),
        ([99], ⟨opDEL, [100]⟩)] []).table.all wfTuple = true ∧
     (MemDB.mk [([97], ⟨opSET, [98]⟩), ([99], ⟨opDEL, [100]⟩)]
        []).table.Chain' (fun a b => bytesCmp a.1 b.1 = .lt)) ∧
    (∃ smallest longest wal',
      flushToDisk (MemDB.mk [([97], ⟨opSET, [98]⟩), ([99], ⟨opDEL, [100]⟩)]
          []) =
        (some (encodeSSTHeader magicSSTF
          (MemDB.mk [([97], ⟨opSET, [98]⟩), ([99], ⟨opDEL, [100]⟩)]
            []).table.length smallest longest 1 ++
          ((MemDB.mk [([97], ⟨opSET, [98]⟩), ([99], ⟨opDEL, [100]⟩)]
            []).table.map fun kv => specSSTTuple kv.1 kv.2).flatten),
          wal') ∧
      (∃ kv ∈ (MemDB.mk [([97], ⟨opSET, [98]⟩), ([99], ⟨opDEL, [100]⟩)]
        []).table, kv.1 = smallest) ∧
      (∀ kv ∈ (MemDB.mk [([97], ⟨opSET, [98]⟩), ([99], ⟨opDEL, [100]⟩)]
        []).table, bytesLe smallest kv.1) ∧
      (∃ kv ∈ (MemDB.mk [([97], ⟨opSET, [98]⟩), ([99], ⟨opDEL, [100]⟩)]
        []).table, kv.1 = longest) ∧
      (∀ kv ∈ (MemDB.mk [([97], ⟨opSET, [98]⟩), ([99], ⟨opDEL, [100]⟩)]
        []).table, bytesLe kv.1 longest) ∧
      ((MemDB.mk [([97], ⟨opSET, [98]⟩), ([99], ⟨opDEL, [100]⟩)]
        []).table.map fun kv => kv.1).Chain'
          (fun a b => bytesCmp a b = .lt)) :=
  ⟨⟨by decide, by decide,
    by simp [List.chain'_cons, List.chain'_singleton, bytesCmp]⟩,
    claim7_flush_writes_header_and_sorted_tuples
      (MemDB.mk [([97], ⟨opSET, [98]⟩), ([99], ⟨opDEL, [100]⟩)] [])
      (by decide) (by decide)
      (by simp [List.chain'_cons, List.chain'_singleton, bytesCmp])⟩

/-- C8: appending a valid WAL record (watermark placeholder or retired,
op `SET` or `DEL`, arbitrary key and value bytes) and reading at the
append position returns the record's watermark, operation, key and value
unchanged, with a next-offset equal to the file position immediately
after the record: offset + 15 + key length + value length. -/
theorem claim8_wal_record_roundtrip (file : List Nat) (r : WALRecord)
    (hwf : wfRecord r = true) (_hop : r.op = opSET ∨ r.op = opDEL) :
    readWALEntryAt (appendEntry file r.watermark r.op r.key r.value)
        file.length =
      some (⟨r.op, r.key, r.value⟩,
        file.length + (15 + r.key.length + r.value.length), r.watermark) := by
  have harith : file.length + (15 + r.key.length + r.value.length) =
      file.length + (3 + r.key.length + r.value.length + 4 * 2 + 4) := by
    omega
  rw [appendEntry, harith]
  simpa using readWALEntryAt_encode file r [] hwf

/-- Witness for C8: a retired `DEL` record appended to a three-byte
file. -/
theorem claim8_witness :
    (wfRecord ⟨Watermark, opDEL, [5], []⟩ = true ∧
      ((⟨Watermark, opDEL, [5], []⟩ : WALRecord).op = opSET ∨
       (⟨Watermark, opDEL, [5], []⟩ : WALRecord).op = opDEL)) ∧
    readWALEntryAt (appendEntry [1, 2, 3] Watermark opDEL [5] [])
        ([1, 2, 3] : List Nat).length =
      some (⟨opDEL, [5], []⟩,
        ([1, 2, 3] : List Nat).length + (15 + ([5] : List Nat).length +
          ([] : List Nat).length), Watermark) :=
  ⟨⟨by decide, Or.inr rfl⟩,
    claim8_wal_record_roundtrip [1, 2, 3] ⟨Watermark, opDEL, [5], []⟩
      (by decide) (Or.inr rfl)⟩

/-- C9: for a directory whose entries each either are a canonical
`sst%03d` name (`sst` plus three zero-padded decimal digits) or fail the
`sst%03d` scan, `NewSSTFile` assigns a number strictly greater than the
number of every canonical file present — the maximum existing number plus
one — and the number is 1 (file `sst001`) when no canonical file
exists. -/
theorem claim9_new_sst_number_strictly_greater (files : List (List Nat))
    (h : ∀ f ∈ files, (∃ n, n ≤ 999 ∧ f = canonicalSSTName n) ∨
      scanSSTNum f = none) :
    (∀ n, n ≤ 999 → canonicalSSTName n ∈ files →
      n < newSSTFileNumber files) ∧
    (∃ m, newSSTFileNumber files = m + 1 ∧
      (m = 0 ∨ (m ≤ 999 ∧ canonicalSSTName m ∈ files)) ∧
      ∀ n, n ≤ 999 → canonicalSSTName n ∈ files → n ≤ m) ∧
    ((¬ ∃ n, n ≤ 999 ∧ canonicalSSTName n ∈ files) →
      newSSTFileNumber files = 1) := by
  obtain ⟨m, hm1, hm2, _, hm4⟩ := findLastSSTNumber_fold files 0 h
  have hnew : newSSTFileNumber files = m + 1 := by
    rw [newSSTFileNumber, findLastSSTNumber, hm1]
  refine ⟨?_, ⟨m, hnew, hm2.imp id id, hm4⟩, ?_⟩
  · intro n hn hmem
    have := hm4 n hn hmem
    omega
  · intro hno
    rcases hm2 with h0 | ⟨hle, hmem⟩
    · rw [hnew, h0]
    · exact absurd ⟨m, hle, hmem⟩ hno

/-- Witness for C9 at a directory holding `sst001` and `sst003`. -/
theorem claim9_witness :
    (∀ f ∈ [canonicalSSTName 1, canonicalSSTName 3],
      (∃ n, n ≤ 999 ∧ f = canonicalSSTName n) ∨ scanSSTNum f = none) ∧
    ((∀ n, n ≤ 999 →
        canonicalSSTName n ∈ [canonicalSSTName 1, canonicalSSTName 3] →
        n < newSSTFileNumber [canonicalSSTName 1, canonicalSSTName 3]) ∧
     (∃ m, newSSTFileNumber [canonicalSSTName 1, canonicalSSTName 3] =
        m + 1 ∧
        (m = 0 ∨ (m ≤ 999 ∧ canonicalSSTName m ∈
          [canonicalSSTName 1, canonicalSSTName 3])) ∧
        ∀ n, n ≤ 999 →
          canonicalSSTName n ∈ [canonicalSSTName 1, canonicalSSTName 3] →
          n ≤ m) ∧
     ((¬ ∃ n, n ≤ 999 ∧ canonicalSSTName n ∈
        [canonicalSSTName 1, canonicalSSTName 3]) →
      newSSTFileNumber [canonicalSSTName 1, canonicalSSTName 3] = 1)) := by
  have h : ∀ f ∈ [canonicalSSTName 1, canonicalSSTName 3],
      (∃ n, n ≤ 999 ∧ f = canonicalSSTName n) ∨ scanSSTNum f = none := by
    intro f hf
    rcases List.mem_cons.mp hf with h1 | h1
    · exact Or.inl ⟨1, by omega, h1⟩
    · rcases List.mem_cons.mp h1 with h2 | h2
      · exact Or.inl ⟨3, by omega, h2⟩
      · exact absurd h2 (List.not_mem_nil f)
  exact ⟨h, claim9_new_sst_number_strictly_greater _ h⟩

/-- C10: the per-file `Get` scans tuples in stored order and the earliest
tuple whose key matches decides the outcome — a matching `SET` returns
Found with that tuple's value, a matching `DEL` reports the tombstone —
so when a file holds several tuples for one key the earliest wins and the
later ones are never reached. -/
theorem claim10_sst_get_earliest_tuple_wins (entryCount version : Nat)
    (sk lk key : List Nat) (ts : List (List Nat × Value))
    (hsk : sk.length < 2 ^ 32) (hlk : lk.length < 2 ^ 32)
    (hts : ts.all wfTuple = true) :
    sstGet (encodeSSTHeader magicSSTF entryCount sk lk version ++
      encodeSSTTuples ts) key = sstScanSpec ts key :=
  sstGet_encode entryCount version sk lk key ts hsk hlk hts

/-- Witness for C10 on a file holding a `SET` and then a `DEL` for the
same key: the earliest (`SET`) tuple wins. -/
theorem claim10_witness :
    ((([107] : List Nat).length < 2 ^ 32 ∧
      ([([107], ⟨opSET, [49]⟩), ([107], ⟨opDEL, [50]⟩)] :
        List (List Nat × Value)).all wfTuple = true) ∧
     sstGet (encodeSSTHeader magicSSTF 2 [107] [107] 1 ++
        encodeSSTTuples [([107], ⟨opSET, [49]⟩), ([107], ⟨opDEL, [50]⟩)])
        [107] =
      sstScanSpec [([107], ⟨opSET, [49]⟩), ([107], ⟨opDEL, [50]⟩)] [107]) ∧
    sstScanSpec [([107], ⟨opSET, [49]⟩), ([107], ⟨opDEL, [50]⟩)] [107] =
      .found [49] :=
  ⟨⟨⟨by decide, by decide⟩,
    claim10_sst_get_earliest_tuple_wins 2 1 [107] [107] [107] _
      (by decide) (by decide) (by decide)⟩, by decide⟩

end KVStore
